import Mathlib

/-!
Verification of the DACSynthformer utility scripts.

Shallow embedding of the six Python scripts of the repository:
`scripts/dac_encode.py`, `scripts/rename_files.py`, `scripts/rename_dac_files.py`,
`scripts/reorganize_dac_files.py`, `split_excel_data.py` and `wav-extract.py`.

Numeric values that are Python floats are modelled as exact rationals (`ℚ`);
a directory is modelled as a list of names, or of (name, content) pairs when
overwriting matters; the third-party library calls (pandas sampling, torch
device probes, the DAC codec) are modelled by their documented contracts, as
noted at each definition.
-/

/-- Python's `int()` applied to a float/rational: truncation toward zero. -/
def pyInt (q : ℚ) : ℤ := if q < 0 then ⌈q⌉ else ⌊q⌋

/-- Fuel-driven big-endian decimal digit rendering of a natural number:
`natToStrAux (n+1) n` is the digit list of Python's `str(n)`. -/
def natToStrAux : ℕ → ℕ → List Char
  | 0, _ => []
  | fuel + 1, n =>
    if n < 10 then [Nat.digitChar n]
    else natToStrAux fuel (n / 10) ++ [Nat.digitChar (n % 10)]

/-- Python's `str(n)` for a natural number `n` (decimal rendering). -/
def natToStr (n : ℕ) : String := String.mk (natToStrAux (n + 1) n)

/-- Decode a big-endian decimal digit list back into a natural number. -/
def decodeDigits (cs : List Char) : ℕ := cs.foldl (fun a c => 10 * a + (c.toNat - 48)) 0

/-- Python's `str.lower()`, character by character (ASCII-faithful). -/
def strToLower (s : String) : String := String.mk (s.data.map Char.toLower)

namespace DacEncode

/-- Availability of the torch backends on the host machine, the environment
probed by `get_available_device`: `torch.backends.mps.is_available()`,
whether the MPS test allocation `torch.zeros(1).to("mps")` succeeds,
`torch.cuda.is_available()`, and whether the CUDA test allocation succeeds. -/
structure TorchEnv where
  mps_available : Bool
  mps_alloc_ok : Bool
  cuda_available : Bool
  cuda_alloc_ok : Bool

/-- `get_available_device` from `scripts/dac_encode.py` (lines 21-50): a request
other than `auto` (compared after `.lower()`) is returned unchanged; otherwise
probe MPS, then CUDA, then fall back to CPU. -/
def get_available_device (env : TorchEnv) (requested : String) : String :=
  if strToLower requested ≠ "auto" then requested
  else if env.mps_available && env.mps_alloc_ok then "mps"
  else if env.cuda_available && env.cuda_alloc_ok then "cuda"
  else "cpu"

/-- Zero-pad a rendered number on the left to width 5, the padding part of
Python's `f"{value:05.2f}"`. -/
def padTo5 (s : String) : String :=
  if s.length < 5 then String.mk (List.replicate (5 - s.length) '0') ++ s else s

/-- Render `k` as exactly two decimal digits (the fractional part of `%.2f`),
assuming `k < 100`. -/
def pad2 (k : ℕ) : String := if k < 10 then "0" ++ natToStr k else natToStr k

/-- `f"{v:05.2f}"` for a nonnegative value whose rounded hundredths are `n`:
integer part `n / 100`, a dot, fractional part `n % 100`, left-padded with
zeros to width 5. -/
def fmtNat (n : ℕ) : String := padTo5 (natToStr (n / 100) ++ "." ++ pad2 (n % 100))

/-- `format_param_value` from `scripts/dac_encode.py` (lines 53-60): clamp the
value to [0, 1], format with `f"{value:05.2f}"` (modelled over ℚ, rounding the
value to the nearest hundredth), and slice to the first 5 characters. -/
def format_param_value (value : ℚ) : String :=
  let v := max 0 (min 1 value)
  String.mk ((fmtNat (round (v * 100)).toNat).data.take 5)

/-- `generate_output_filename` from `scripts/dac_encode.py` (lines 63-69).
The first argument `original_name` is received but never used, exactly as in
the source. -/
def generate_output_filename (original_name : String) (class_name : String) (param1 : ℚ) :
    String :=
  let _ := original_name
  class_name ++ "--param1-" ++ format_param_value param1 ++ ".dac"

/-- Outcome of a run of `main` in `scripts/dac_encode.py`: either the input
directory is missing (error logged, `main` returns at lines 143-145), or every
audio file found in the directory is encoded to its generated output name. -/
inductive EncodeResult where
  | noInputDir
  | encoded (outputs : List String)
deriving DecidableEq, Repr

/-- The directory-processing skeleton of `main` in `scripts/dac_encode.py`
(lines 143-145 and 174-192), for a fixed (non-randomized) `param1`: if the
input directory does not exist, log an error and return; otherwise each audio
file `f` is encoded to output name `generate_output_filename f.stem class_name
param1`. The codec call itself is opaque I/O and is not modelled;
`audio_files` is the list of stems found by the glob. -/
def encode_main (input_dir_exists : Bool) (audio_files : List String)
    (class_name : String) (param1 : ℚ) : EncodeResult :=
  if !input_dir_exists then .noInputDir
  else .encoded (audio_files.map fun f => generate_output_filename f class_name param1)

/-- Does a five-character string have the shape `NN.NN` (digit, digit, dot,
digit, digit)? -/
def isParamShape (s : String) : Bool :=
  match s.data with
  | [a, b, c, d, e] => a.isDigit && b.isDigit && (c == '.') && d.isDigit && e.isDigit
  | _ => false

/-- Read the number of hundredths encoded by a `NN.NN` string back out. -/
def parseParamNat (s : String) : ℕ :=
  match s.data with
  | [a, b, _, d, e] =>
      1000 * (a.toNat - 48) + 100 * (b.toNat - 48) + 10 * (d.toNat - 48) + (e.toNat - 48)
  | _ => 0

end DacEncode

namespace WavExtract

/-- `extract_random_segment` from `wav-extract.py` (lines 6-29). The sample
data loaded by librosa is an arbitrary list `y`, `sr` is the sample rate,
`segment_duration` the requested length in seconds, and `start_time` the value
drawn by `random.uniform(0, max_start_time)` (randomness is an input of the
model). `total_duration` is `librosa.get_duration(y=y, sr=sr) = len(y)/sr`.
The returned list is what is written to the output WAV file: the whole signal
when it is not strictly longer than the segment, otherwise the Python slice
`y[start_sample:end_sample]`. -/
def extract_random_segment {α : Type} (y : List α) (sr : ℕ) (segment_duration : ℚ)
    (start_time : ℚ) : List α :=
  let total_duration : ℚ := (y.length : ℚ) / (sr : ℚ)
  if total_duration ≤ segment_duration then y
  else
    let start_sample := (pyInt (start_time * sr)).toNat
    let end_sample := start_sample + (pyInt (segment_duration * sr)).toNat
    (y.drop start_sample).take (end_sample - start_sample)

end WavExtract

namespace SplitExcel

/-- A spreadsheet row as used by `split_excel_data.py`: the dataframe index
(unique per row), the `Class Name` column and the `Full File Name` column. -/
structure Row where
  idx : ℕ
  className : String
  fileName : String
deriving DecidableEq, Repr

/-- Modelled from the library contract: pandas `DataFrame.sample(n=k,
random_state=seed)` is third-party code.  It is modelled as a deterministic
pseudo-random selection (a rotation keyed by the seed, then a prefix) that
returns exactly `k` of the given rows without replacement and raises — here
`none` — when `k` is negative or exceeds the number of rows. -/
def sampleRows (rows : List Row) (k : ℤ) (seed : ℕ) : Option (List Row) :=
  if 0 ≤ k ∧ k.toNat ≤ rows.length then
    some ((rows.rotate (seed % (rows.length + 1))).take k.toNat)
  else none

/-- `sampled_data.drop(train_data.index)` from `split_excel_data.py` line 62:
keep the sampled rows whose dataframe index does not occur in the train
selection. -/
def dropByIdx (sampled train : List Row) : List Row :=
  sampled.filter (fun r => !(train.any (fun t => t.idx == r.idx)))

/-- The per-class body of the loop in `create_train_val_split`
(`split_excel_data.py` lines 39-66), for one non-empty class:
if the class has fewer rows than `samples_per_class`, all of its rows are used
and the train count is `max(1, int(n * train_ratio))`; otherwise
`samples_per_class` rows are sampled and the train count is
`int(samples_per_class * train_ratio)` (computed at lines 33-34).  The train
rows are sampled from the retained rows and the validation rows are the
retained rows minus the train rows (`drop` by index). -/
def splitClass (samples_per_class : ℕ) (train_ratio : ℚ) (seed : ℕ)
    (class_samples : List Row) : Option (List Row × List Row) :=
  if class_samples.length < samples_per_class then
    let t := max 1 (pyInt ((class_samples.length : ℚ) * train_ratio))
    match sampleRows class_samples t seed with
    | some train => some (train, dropByIdx class_samples train)
    | none => none
  else
    let t := pyInt ((samples_per_class : ℚ) * train_ratio)
    match sampleRows class_samples (samples_per_class : ℤ) seed with
    | some sampled =>
      match sampleRows sampled t seed with
      | some train => some (train, dropByIdx sampled train)
      | none => none
    | none => none

/-- `df[class_column].unique()`: the distinct class names in first-occurrence
order. -/
def uniqueClasses (df : List Row) : List String :=
  df.foldl (fun acc r => if r.className ∈ acc then acc else acc ++ [r.className]) []

/-- `create_train_val_split` from `split_excel_data.py` (lines 6-70), up to the
point where the two dataframes are written to disk: for each distinct class,
split its rows with `splitClass` and concatenate the train parts and the
validation parts.  Classes with no rows are skipped (`continue`); an error in
pandas sampling aborts the run (`none`). -/
def create_train_val_split (df : List Row) (samples_per_class : ℕ) (train_ratio : ℚ)
    (seed : ℕ) : Option (List Row × List Row) :=
  (uniqueClasses df).foldl
    (fun acc cls =>
      match acc with
      | none => none
      | some (tr, va) =>
        let class_samples := df.filter (fun r => r.className == cls)
        if class_samples.length = 0 then some (tr, va)
        else
          match splitClass samples_per_class train_ratio seed class_samples with
          | some (t, v) => some (tr ++ t, va ++ v)
          | none => none)
    (some ([], []))

end SplitExcel

namespace RenameFiles

/-- The numeric-suffixed candidate name `f"{name}_{suffix}"` built by
`scripts/rename_files.py` (lines 35 and 55). -/
def candidate (base : String) (i : ℕ) : String := base ++ "_" ++ natToStr i

/-- The `while new_dest.exists()` loop of `scripts/rename_files.py`
(lines 33-39 and 52-59), with explicit fuel: starting from suffix `i`, return
the first candidate name not present in the directory. -/
def resolveDest (existing : List String) (base : String) : ℕ → ℕ → Option String
  | 0, _ => none
  | fuel + 1, i =>
    if candidate base i ∈ existing then resolveDest existing base fuel (i + 1)
    else some (candidate base i)

/-- Destination-name resolution of `scripts/rename_files.py`: use the intended
name when it is free, otherwise search numeric suffixes starting at 1.  Fuel
`existing.length + 1` suffices (proved below), matching the unbounded Python
`while` loop. -/
def destFor (existing : List String) (base : String) : Option String :=
  if base ∈ existing then resolveDest existing base (existing.length + 1) 1 else some base

end RenameFiles

namespace RenameDac

/-- Does the character list contain the substring `.dac` (the lazy
`.*?(\.dac)` tail of the regex in `scripts/rename_dac_files.py` line 14)? -/
def hasDotDac : List Char → Bool
  | [] => false
  | c :: rest => (['.', 'd', 'a', 'c'].isPrefixOf (c :: rest)) || hasDotDac rest

/-- `re.match(r"(Zelda--param1-\d+\.\d+).*?(\.dac)", filename)` from
`scripts/rename_dac_files.py` (lines 14-28), returning
`match.group(1) + match.group(2)` on success: the literal prefix, one or more
digits, a dot, one or more digits (both `\d+` greedy, which maximal munch
realises since `.dac` starts with a non-digit), then `.dac` somewhere in the
remainder (`re.match` anchors only the start of the string). -/
def matchDacPattern (filename : String) : Option String :=
  let cs := filename.data
  let pre := "Zelda--param1-".data
  if pre.isPrefixOf cs then
    let rest1 := cs.drop pre.length
    let d1 := rest1.takeWhile Char.isDigit
    let rest2 := rest1.drop d1.length
    if d1.isEmpty then none
    else
      match rest2 with
      | [] => none
      | c :: rest3 =>
        if c = '.' then
          let d2 := rest3.takeWhile Char.isDigit
          let rest4 := rest3.drop d2.length
          if d2.isEmpty then none
          else if hasDotDac rest4 then
            some (String.mk (pre ++ d1 ++ [c] ++ d2) ++ ".dac")
          else none
        else none
  else none

/-- What `rename_dac_files` does with one file (lines 16-38 of
`scripts/rename_dac_files.py`): skip with a warning when the regex does not
match; do nothing when the new name equals the old one; skip with a warning
when the new name already exists; otherwise rename. -/
inductive DacAction where
  | skipNoMatch
  | noop
  | skipExists
  | renamed (new : String)
deriving DecidableEq, Repr

/-- One iteration of the loop in `rename_dac_files`
(`scripts/rename_dac_files.py` lines 16-38) against the current directory
contents. -/
def renameDacStep (existing : List String) (filename : String) : DacAction :=
  match matchDacPattern filename with
  | none => .skipNoMatch
  | some new_filename =>
    if filename = new_filename then .noop
    else if new_filename ∈ existing then .skipExists
    else .renamed new_filename

/-- Does the action move a file at all? -/
def movesFile : DacAction → Bool
  | .renamed _ => true
  | _ => false

/-- Effect of one action on the directory contents (`os.rename`). -/
def applyAction (existing : List String) (filename : String) : DacAction → List String
  | .renamed nf => existing.erase filename ++ [nf]
  | _ => existing

/-- The whole loop of `rename_dac_files`: the file list is globbed up front,
then each file is processed against the directory state current at its turn.
Returns the final directory contents and the per-file actions. -/
def rename_dac_run (existing : List String) : List String → List String × List DacAction
  | [] => (existing, [])
  | f :: fs =>
    let a := renameDacStep existing f
    let out := rename_dac_run (applyAction existing f a) fs
    (out.1, a :: out.2)

end RenameDac

namespace Reorg

/-- State threaded through `process_files` in `scripts/reorganize_dac_files.py`
(lines 56-69): the source directory and one destination directory as
name-to-content maps (most recent entry first), plus the names warned about as
missing.  Contents are abstract tokens (`ℕ`). -/
structure DirState where
  src : List (String × ℕ)
  dst : List (String × ℕ)
  warns : List String
deriving DecidableEq, Repr

/-- `os.rename`/`shutil.move` removing a name from a directory map. -/
def removeFile (fs : List (String × ℕ)) (n : String) : List (String × ℕ) :=
  fs.filter (fun p => !(p.1 == n))

/-- One iteration of the loop in `process_files`
(`scripts/reorganize_dac_files.py` lines 59-69): if the source file exists,
`shutil.move` (when `--move` is given) or `shutil.copy2` it to the destination
path — both overwrite an existing destination file of the same name, which the
leading map entry realises; otherwise print a warning and continue. -/
def processOne (move : Bool) (st : DirState) (name : String) : DirState :=
  match st.src.lookup name with
  | some c =>
    if move then ⟨removeFile st.src name, (name, c) :: st.dst, st.warns⟩
    else ⟨st.src, (name, c) :: st.dst, st.warns⟩
  | none => ⟨st.src, st.dst, st.warns ++ [name]⟩

/-- `process_files` from `scripts/reorganize_dac_files.py` (lines 56-69). -/
def process_files (move : Bool) (st : DirState) (file_list : List String) : DirState :=
  file_list.foldl (processOne move) st

/-- Inputs of `main` in `scripts/reorganize_dac_files.py`: the two spreadsheets
(`none` when `pd.read_excel` raises, e.g. the file is missing; otherwise the
`Full File Name` column) and the source directory contents. -/
structure ReorgInputs where
  train_excel : Option (List String)
  val_excel : Option (List String)
  source : List (String × ℕ)

/-- Outcome of a run of `main` in `scripts/reorganize_dac_files.py`: either the
spreadsheet read failed (the `except` at lines 36-38 prints the error and
returns before any file is processed), or the run finished with the final
source contents, the two destination directories, and the warnings. -/
inductive ReorgResult where
  | abortedRead
  | finished (src : List (String × ℕ)) (train_dst val_dst : List (String × ℕ))
      (warns : List String)
deriving DecidableEq, Repr

/-- `main` from `scripts/reorganize_dac_files.py` (lines 26-73): read both
spreadsheets (aborting on failure), then route the training rows into the
train directory and the validation rows into the validation directory. -/
def reorganize_main (move : Bool) (inp : ReorgInputs) : ReorgResult :=
  match inp.train_excel, inp.val_excel with
  | some train_files, some val_files =>
    let s1 := process_files move ⟨inp.source, [], []⟩ train_files
    let s2 := process_files move ⟨s1.src, [], []⟩ val_files
    .finished s2.src s1.dst s2.dst (s1.warns ++ s2.warns)
  | _, _ => .abortedRead

end Reorg

/-! ## Helper lemmas -/

theorem decodeDigits_append (cs : List Char) (c : Char) :
    decodeDigits (cs ++ [c]) = 10 * decodeDigits cs + (c.toNat - 48) := by
  simp [decodeDigits]

theorem digitChar_decode (d : ℕ) (hd : d < 10) : (Nat.digitChar d).toNat - 48 = d := by
  interval_cases d <;> decide

theorem decode_natToStrAux :
    ∀ (fuel n : ℕ), n < fuel → decodeDigits (natToStrAux fuel n) = n := by
  intro fuel
  induction fuel with
  | zero => intro n h; omega
  | succ f ih =>
    intro n h
    by_cases h10 : n < 10
    · simp [natToStrAux, h10, decodeDigits, digitChar_decode n h10]
    · have hdiv : n / 10 < n := Nat.div_lt_self (by omega) (by omega)
      have hlt : n / 10 < f := by omega
      simp only [natToStrAux, if_neg h10]
      rw [decodeDigits_append, ih _ hlt, digitChar_decode _ (Nat.mod_lt n (by omega))]
      omega

theorem natToStr_injective : Function.Injective natToStr := by
  intro a b hab
  have h : (natToStr a).data = (natToStr b).data := by rw [hab]
  simp only [natToStr] at h
  have ha := decode_natToStrAux (a + 1) a (Nat.lt_succ_self a)
  have hb := decode_natToStrAux (b + 1) b (Nat.lt_succ_self b)
  rw [← ha, ← hb, h]

theorem fmt5_shape : ∀ n, n < 101 →
    DacEncode.isParamShape (String.mk ((DacEncode.fmtNat n).data.take 5)) = true ∧
    DacEncode.parseParamNat (String.mk ((DacEncode.fmtNat n).data.take 5)) = n := by
  decide

theorem round_clamp_bounds (v : ℚ) :
    0 ≤ round ((max 0 (min 1 v)) * 100) ∧ round ((max 0 (min 1 v)) * 100) ≤ 100 := by
  have h0 : (0 : ℚ) ≤ max 0 (min 1 v) := le_max_left 0 (min 1 v)
  have h1 : max 0 (min 1 v) ≤ 1 := max_le (by norm_num) (min_le_left 1 v)
  have hl : (0 : ℚ) ≤ (max 0 (min 1 v)) * 100 := by positivity
  have hu : (max 0 (min 1 v)) * 100 ≤ 100 := by nlinarith
  constructor
  · have : round ((0 : ℚ)) ≤ round ((max 0 (min 1 v)) * 100) := by
      rw [round_eq, round_eq]; exact Int.floor_le_floor (by linarith)
    simpa using this
  · have : round ((max 0 (min 1 v)) * 100) ≤ round ((100 : ℚ)) := by
      rw [round_eq, round_eq]; exact Int.floor_le_floor (by linarith)
    have h100 : round ((100 : ℚ)) = 100 := by norm_num [round_eq]
    omega

/-- C1: for every class name and every real `param1`, the encode script's
output filename is exactly `{class_name}--param1-{NN.NN}.dac`, where the five
characters `NN.NN` (two digits, a dot, two digits) encode `param1` clamped to
[0, 1] (in hundredths, rounded). -/
theorem claim_C1_output_filename_format (orig class_name : String) (v : ℚ) :
    DacEncode.generate_output_filename orig class_name v =
      class_name ++ "--param1-" ++ DacEncode.format_param_value v ++ ".dac" ∧
    DacEncode.isParamShape (DacEncode.format_param_value v) = true ∧
    (DacEncode.parseParamNat (DacEncode.format_param_value v) : ℤ) =
      round ((max 0 (min 1 v)) * 100) := by
  obtain ⟨hge, hle⟩ := round_clamp_bounds v
  have hn : (round ((max 0 (min 1 v)) * 100)).toNat < 101 := by omega
  obtain ⟨hshape, hval⟩ := fmt5_shape (round ((max 0 (min 1 v)) * 100)).toNat hn
  refine ⟨rfl, ?_, ?_⟩
  · simpa [DacEncode.format_param_value] using hshape
  · have : DacEncode.parseParamNat (DacEncode.format_param_value v) =
        (round ((max 0 (min 1 v)) * 100)).toNat := by
      simpa [DacEncode.format_param_value] using hval
    rw [this, Int.toNat_of_nonneg hge]

/-- C5 counterexample: the claim says any request other than the string `auto`
is returned unchanged without probing, but the code lowercases first: the
request `AUTO` differs from `auto` yet is probed and answered `mps` on a
machine with working MPS. -/
theorem claim_C5_counterexample :
    DacEncode.get_available_device ⟨true, true, true, true⟩ "AUTO" = "mps" ∧
    "AUTO" ≠ "auto" ∧ "mps" ≠ "AUTO" := by
  refine ⟨by decide, by decide, by decide⟩

/-- C5 (amended): the request is compared to `auto` case-insensitively
(after `.lower()`); a request not lowercasing to `auto` is returned unchanged
without probing, and a request lowercasing to `auto` probes MPS (availability
and test allocation), then CUDA, then falls back to CPU. -/
theorem claim_C5_device_probe_order (env : DacEncode.TorchEnv) (requested : String) :
    (strToLower requested ≠ "auto" → DacEncode.get_available_device env requested = requested) ∧
    (strToLower requested = "auto" →
      DacEncode.get_available_device env requested =
        if env.mps_available && env.mps_alloc_ok then "mps"
        else if env.cuda_available && env.cuda_alloc_ok then "cuda"
        else "cpu") := by
  constructor
  · intro h; simp [DacEncode.get_available_device, h]
  · intro h; simp [DacEncode.get_available_device, h]

theorem claim_C5_witness :
    DacEncode.get_available_device ⟨false, false, true, true⟩ "auto" = "cuda" ∧
    DacEncode.get_available_device ⟨true, true, true, true⟩ "cpu" = "cpu" := by
  constructor
  · have h := (claim_C5_device_probe_order ⟨false, false, true, true⟩ "auto").2 (by decide)
    simpa using h
  · exact (claim_C5_device_probe_order ⟨true, true, true, true⟩ "cpu").1 (by decide)

/-- C8: `generate_output_filename` is independent of its first argument, and
consequently, when the encode script processes a directory with a fixed
`param1`, every file of the directory is mapped to the same single output
name. -/
theorem claim_C8_filename_independent_of_input :
    (∀ (a b class_name : String) (p : ℚ),
      DacEncode.generate_output_filename a class_name p =
        DacEncode.generate_output_filename b class_name p) ∧
    (∀ (files : List String) (class_name : String) (p : ℚ) (outs : List String),
      DacEncode.encode_main true files class_name p = .encoded outs →
        ∀ o ∈ outs, o = DacEncode.generate_output_filename "" class_name p) := by
  constructor
  · intro a b class_name p; rfl
  · intro files class_name p outs h o ho
    have houts : outs = files.map fun f => DacEncode.generate_output_filename f class_name p := by
      simpa [DacEncode.encode_main] using h.symm
    subst houts
    obtain ⟨f, _, rfl⟩ := List.mem_map.mp ho
    rfl

theorem claim_C8_witness :
    DacEncode.generate_output_filename "x" "tone" 1 =
      DacEncode.generate_output_filename "" "tone" 1 := by
  have h := (claim_C8_filename_independent_of_input).2 ["x"] "tone" 1
    [DacEncode.generate_output_filename "x" "tone" 1] rfl
  exact h _ (by simp)

/-- C6: when the input strictly exceeds `segment_duration`, the extracted
segment has exactly `int(segment_duration * sr)` samples, they are consecutive
samples of the input, and the slice stays within bounds; when the input lasts
at most `segment_duration`, the entire signal is written unchanged. -/
theorem claim_C6_segment_extraction {α : Type} (y : List α) (sr : ℕ) (segd t : ℚ)
    (hsr : 0 < sr) (hsegd : 0 ≤ segd) (ht0 : 0 ≤ t)
    (ht : t ≤ (y.length : ℚ) / sr - segd) :
    (segd < (y.length : ℚ) / sr →
      (WavExtract.extract_random_segment y sr segd t).length = (pyInt (segd * sr)).toNat ∧
      (pyInt (t * sr)).toNat + (pyInt (segd * sr)).toNat ≤ y.length ∧
      y = y.take ((pyInt (t * sr)).toNat) ++ WavExtract.extract_random_segment y sr segd t ++
          y.drop ((pyInt (t * sr)).toNat + (pyInt (segd * sr)).toNat)) ∧
    ((y.length : ℚ) / sr ≤ segd → WavExtract.extract_random_segment y sr segd t = y) := by
  have hsrQ : (0 : ℚ) < (sr : ℚ) := by exact_mod_cast hsr
  have hts : (0 : ℚ) ≤ t * sr := by positivity
  have hks : (0 : ℚ) ≤ segd * sr := by positivity
  have hpys : pyInt (t * sr) = ⌊t * sr⌋ := by rw [pyInt, if_neg (not_lt.mpr hts)]
  have hpyk : pyInt (segd * sr) = ⌊segd * sr⌋ := by rw [pyInt, if_neg (not_lt.mpr hks)]
  set s := (pyInt (t * sr)).toNat with hsdef
  set k := (pyInt (segd * sr)).toNat with hkdef
  have hsle : (s : ℚ) ≤ t * sr := by
    have h0 : 0 ≤ ⌊t * sr⌋ := Int.floor_nonneg.mpr hts
    have hfl := Int.floor_le (t * sr)
    have hcast : ((⌊t * sr⌋.toNat : ℕ) : ℚ) = ((⌊t * sr⌋ : ℤ) : ℚ) := by
      rw [← Int.cast_natCast, Int.toNat_of_nonneg h0]
    rw [hsdef, hpys, hcast]
    exact hfl
  have hkle : (k : ℚ) ≤ segd * sr := by
    have h0 : 0 ≤ ⌊segd * sr⌋ := Int.floor_nonneg.mpr hks
    have hfl := Int.floor_le (segd * sr)
    have hcast : ((⌊segd * sr⌋.toNat : ℕ) : ℚ) = ((⌊segd * sr⌋ : ℤ) : ℚ) := by
      rw [← Int.cast_natCast, Int.toNat_of_nonneg h0]
    rw [hkdef, hpyk, hcast]
    exact hfl
  have hlen : t * sr + segd * sr ≤ (y.length : ℚ) := by
    have h1 : t + segd ≤ (y.length : ℚ) / sr := by linarith
    have h2 : (t + segd) * sr ≤ ((y.length : ℚ) / sr) * sr :=
      mul_le_mul_of_nonneg_right h1 (le_of_lt hsrQ)
    rw [div_mul_cancel₀ _ (ne_of_gt hsrQ)] at h2
    nlinarith
  have hsk : s + k ≤ y.length := by
    have hq : (s : ℚ) + (k : ℚ) ≤ (y.length : ℚ) := by linarith
    exact_mod_cast hq
  constructor
  · intro hlt
    have hcond : ¬ ((y.length : ℚ) / (sr : ℚ) ≤ segd) := not_le.mpr hlt
    have hext : WavExtract.extract_random_segment y sr segd t = (y.drop s).take k := by
      rw [WavExtract.extract_random_segment]
      simp only []
      rw [if_neg hcond]
      congr 1
      omega
    refine ⟨?_, hsk, ?_⟩
    · rw [hext, List.length_take, List.length_drop]
      omega
    · rw [hext]
      have hdd : y.drop (s + k) = (y.drop s).drop k := by
        rw [List.drop_drop, Nat.add_comm]
      rw [hdd, List.append_assoc, List.take_append_drop, List.take_append_drop]
  · intro hle
    rw [WavExtract.extract_random_segment]
    simp only []
    rw [if_pos hle]

theorem claim_C6_witness :
    (WavExtract.extract_random_segment [0, 1, 2, 3] 1 (2 : ℚ) 1).length = 2 ∧
    WavExtract.extract_random_segment [0, 1, 2, 3] 1 (2 : ℚ) 1 = [1, 2] := by
  have h := claim_C6_segment_extraction ([0, 1, 2, 3] : List ℕ) 1 2 1
    (by norm_num) (by norm_num) (by norm_num) (by norm_num)
  have hlen := (h.1 (by norm_num)).1
  have hval : (pyInt ((2 : ℚ) * ((1 : ℕ) : ℚ))).toNat = 2 := by
    norm_num [pyInt]
    decide
  constructor
  · rw [hlen, hval]
  · rw [WavExtract.extract_random_segment]
    norm_num [pyInt]
    decide

theorem pyInt_mul_ratio_bounds (N : ℕ) (r : ℚ) (hr0 : 0 ≤ r) (hr1 : r ≤ 1) :
    0 ≤ pyInt ((N : ℚ) * r) ∧ pyInt ((N : ℚ) * r) ≤ N := by
  have hq : (0 : ℚ) ≤ (N : ℚ) * r := by positivity
  have hle : (N : ℚ) * r ≤ (N : ℚ) := by nlinarith
  have hpy : pyInt ((N : ℚ) * r) = ⌊(N : ℚ) * r⌋ := by rw [pyInt, if_neg (not_lt.mpr hq)]
  refine ⟨hpy ▸ Int.floor_nonneg.mpr hq, ?_⟩
  rw [hpy]
  calc ⌊(N : ℚ) * r⌋ ≤ ⌊(N : ℚ)⌋ := Int.floor_le_floor hle
    _ = N := Int.floor_natCast N

theorem dropByIdx_rotate_take_length (sampled : List SplitExcel.Row) (m k : ℕ)
    (hnd : (sampled.map SplitExcel.Row.idx).Nodup) :
    (SplitExcel.dropByIdx sampled ((sampled.rotate m).take k)).length =
      sampled.length - k := by
  set rot := sampled.rotate m with hrot
  set train := rot.take k with htrain
  set p : SplitExcel.Row → Bool :=
    fun r => !(train.any (fun t => t.idx == r.idx)) with hp
  have hperm : List.Perm rot sampled := List.rotate_perm sampled m
  have hndrot : (rot.map SplitExcel.Row.idx).Nodup :=
    ((hperm.map SplitExcel.Row.idx).nodup_iff).mpr hnd
  have hlenfil : (sampled.filter p).length = (rot.filter p).length :=
    (hperm.symm.filter p).length_eq
  have hsplit : rot = train ++ rot.drop k := (List.take_append_drop k rot).symm
  have hfil1 : train.filter p = [] := by
    apply List.filter_eq_nil_iff.mpr
    intro a ha
    have hany : (train.any fun t => t.idx == a.idx) = true :=
      List.any_eq_true.mpr ⟨a, ha, by simp⟩
    simp [hp, hany]
  have hdisj : ∀ a ∈ train, ∀ b ∈ rot.drop k, a.idx ≠ b.idx := by
    intro a ha b hb
    have hnd2 : (train.map SplitExcel.Row.idx ++
        (rot.drop k).map SplitExcel.Row.idx).Nodup := by
      rw [← List.map_append, ← hsplit]; exact hndrot
    have hd := (List.nodup_append.mp hnd2).2.2
    exact fun he => hd (List.mem_map_of_mem SplitExcel.Row.idx ha)
      (he ▸ List.mem_map_of_mem SplitExcel.Row.idx hb)
  have hfil2 : (rot.drop k).filter p = rot.drop k := by
    apply List.filter_eq_self.mpr
    intro a ha
    have hany : (train.any fun t => t.idx == a.idx) = false := by
      by_contra h
      rw [Bool.not_eq_false] at h
      obtain ⟨x, hx, hxe⟩ := List.any_eq_true.mp h
      exact hdisj x hx a ha (by simpa using hxe)
    simp [hp, hany]
  have hrotlen : rot.length = sampled.length := List.length_rotate sampled m
  calc (SplitExcel.dropByIdx sampled train).length = (sampled.filter p).length := rfl
    _ = (rot.filter p).length := hlenfil
    _ = ((train ++ rot.drop k).filter p).length := by rw [← hsplit]
    _ = (train.filter p ++ (rot.drop k).filter p).length := by rw [List.filter_append]
    _ = (rot.drop k).length := by rw [hfil1, hfil2]; simp
    _ = sampled.length - k := by rw [List.length_drop, hrotlen]

theorem rotate_take_map_idx_nodup (l : List SplitExcel.Row) (m k : ℕ)
    (hnd : (l.map SplitExcel.Row.idx).Nodup) :
    (((l.rotate m).take k).map SplitExcel.Row.idx).Nodup := by
  have hperm : List.Perm (l.rotate m) l := List.rotate_perm l m
  have hndrot : ((l.rotate m).map SplitExcel.Row.idx).Nodup :=
    ((hperm.map SplitExcel.Row.idx).nodup_iff).mpr hnd
  exact hndrot.sublist ((List.take_sublist k (l.rotate m)).map SplitExcel.Row.idx)

/-- C2: for a class with at least `samples_per_class` rows, the splitter
assigns exactly `int(samples_per_class * train_ratio)` rows to training and
the rest of the `samples_per_class` sampled rows to validation, the two counts
summing to `samples_per_class`; for a non-empty class with `n <
samples_per_class` rows, the train count is `max(1, int(n * train_ratio))` and
the validation count is `n` minus that, the two counts summing to `n`.
Hypotheses: dataframe indices are unique and the configured ratio lies in
[0, 1] (outside it, pandas `sample` raises). -/
theorem claim_C2_split_counts (class_samples : List SplitExcel.Row)
    (samples_per_class : ℕ) (train_ratio : ℚ) (seed : ℕ)
    (hnd : (class_samples.map SplitExcel.Row.idx).Nodup)
    (hr0 : 0 ≤ train_ratio) (hr1 : train_ratio ≤ 1) :
    (samples_per_class ≤ class_samples.length →
      ∃ tr va, SplitExcel.splitClass samples_per_class train_ratio seed class_samples =
          some (tr, va) ∧
        tr.length = (pyInt ((samples_per_class : ℚ) * train_ratio)).toNat ∧
        tr.length + va.length = samples_per_class) ∧
    (1 ≤ class_samples.length → class_samples.length < samples_per_class →
      ∃ tr va, SplitExcel.splitClass samples_per_class train_ratio seed class_samples =
          some (tr, va) ∧
        tr.length = (max 1 (pyInt ((class_samples.length : ℚ) * train_ratio))).toNat ∧
        tr.length + va.length = class_samples.length) := by
  constructor
  · intro hge
    have hnlt : ¬ (class_samples.length < samples_per_class) := not_lt.mpr hge
    obtain ⟨ht0, htle⟩ := pyInt_mul_ratio_bounds samples_per_class train_ratio hr0 hr1
    set m1 := seed % (class_samples.length + 1) with hm1
    set sampled := (class_samples.rotate m1).take samples_per_class with hsampled
    have hsamp : SplitExcel.sampleRows class_samples (samples_per_class : ℤ) seed =
        some sampled := by
      rw [SplitExcel.sampleRows, if_pos ⟨Int.natCast_nonneg _, by omega⟩]
      rw [hsampled, hm1]
      simp
    have hslen : sampled.length = samples_per_class := by
      rw [hsampled, List.length_take, List.length_rotate]; omega
    have hsnd : (sampled.map SplitExcel.Row.idx).Nodup := by
      rw [hsampled]; exact rotate_take_map_idx_nodup class_samples m1 samples_per_class hnd
    set t := pyInt ((samples_per_class : ℚ) * train_ratio) with htdef
    set m2 := seed % (sampled.length + 1) with hm2
    set train := (sampled.rotate m2).take t.toNat with htrain
    have htr : SplitExcel.sampleRows sampled t seed = some train := by
      rw [SplitExcel.sampleRows, if_pos ⟨ht0, by omega⟩]
    refine ⟨train, SplitExcel.dropByIdx sampled train, ?_, ?_, ?_⟩
    · simp only [SplitExcel.splitClass, if_neg hnlt, hsamp, htr]
    · rw [htrain, List.length_take, List.length_rotate, hslen]
      omega
    · have hva := dropByIdx_rotate_take_length sampled m2 t.toNat hsnd
      have htl : ((sampled.rotate m2).take t.toNat).length = t.toNat := by
        rw [List.length_take, List.length_rotate, hslen]; omega
      rw [htrain, htl, hva, hslen]
      omega
  · intro hpos hlt
    obtain ⟨hp0, hple⟩ :=
      pyInt_mul_ratio_bounds class_samples.length train_ratio hr0 hr1
    set t := max 1 (pyInt ((class_samples.length : ℚ) * train_ratio)) with htdef
    have ht1 : 1 ≤ t := le_max_left 1 _
    have htle : t ≤ (class_samples.length : ℤ) := by
      rw [htdef]
      exact max_le (by exact_mod_cast hpos) hple
    set m1 := seed % (class_samples.length + 1) with hm1
    set train := (class_samples.rotate m1).take t.toNat with htrain
    have htr : SplitExcel.sampleRows class_samples t seed = some train := by
      rw [SplitExcel.sampleRows, if_pos ⟨by omega, by omega⟩]
    refine ⟨train, SplitExcel.dropByIdx class_samples train, ?_, ?_, ?_⟩
    · simp only [SplitExcel.splitClass, if_pos hlt, htr]
    · rw [htrain, List.length_take, List.length_rotate]
      omega
    · have hva := dropByIdx_rotate_take_length class_samples m1 t.toNat hnd
      have htl : ((class_samples.rotate m1).take t.toNat).length = t.toNat := by
        rw [List.length_take, List.length_rotate]; omega
      rw [htrain, htl, hva]
      omega

theorem claim_C2_witness :
    ((SplitExcel.splitClass 2 (1/2) 0 [⟨0, "a", "x"⟩, ⟨1, "a", "y"⟩]).map
      (fun p => (p.1.length, p.2.length))) = some (1, 1) := by
  have h := (claim_C2_split_counts [⟨0, "a", "x"⟩, ⟨1, "a", "y"⟩] 2 (1/2) 0
    (by decide) (by norm_num) (by norm_num)).1 (by decide)
  obtain ⟨tr, va, heq, hlen, hsum⟩ := h
  have hpy : (pyInt (((2 : ℕ) : ℚ) * (1/2))).toNat = 1 := by
    have h1 : pyInt (((2 : ℕ) : ℚ) * (1/2)) = 1 := by norm_num [pyInt]
    rw [h1]; rfl
  have h1 : tr.length = 1 := by rw [hlen, hpy]
  have h2 : va.length = 1 := by omega
  rw [heq]
  simp [h1, h2]

/-- C10: the splitter is deterministic in its inputs: two runs of
`create_train_val_split` on the same spreadsheet with the same
`samples_per_class`, `train_ratio` and `random_seed` select exactly the same
train rows and the same validation rows (library randomness is seeded:
`np.random.seed(random_seed)` and `random_state=random_seed` make the pandas
sampling a deterministic function of its arguments, as modelled in
`sampleRows`). -/
theorem claim_C10_split_deterministic (df₁ df₂ : List SplitExcel.Row)
    (spc₁ spc₂ : ℕ) (r₁ r₂ : ℚ) (s₁ s₂ : ℕ)
    (hdf : df₁ = df₂) (hspc : spc₁ = spc₂) (hr : r₁ = r₂) (hs : s₁ = s₂) :
    SplitExcel.create_train_val_split df₁ spc₁ r₁ s₁ =
      SplitExcel.create_train_val_split df₂ spc₂ r₂ s₂ := by
  subst hdf hspc hr hs
  rfl

theorem claim_C10_witness :
    SplitExcel.create_train_val_split [⟨0, "a", "x"⟩, ⟨1, "a", "y"⟩] 2 (1/2) 42 =
      SplitExcel.create_train_val_split [⟨0, "a", "x"⟩, ⟨1, "a", "y"⟩] 2 (1/2) 42 :=
  claim_C10_split_deterministic _ _ _ _ _ _ _ _ rfl rfl rfl rfl

theorem candidate_data (base : String) (i : ℕ) :
    (RenameFiles.candidate base i).data = base.data ++ '_' :: (natToStr i).data := by
  simp [RenameFiles.candidate]

theorem candidate_injective (base : String) :
    Function.Injective (RenameFiles.candidate base) := by
  intro i j hij
  have hd := congrArg String.data hij
  rw [candidate_data, candidate_data] at hd
  have h1 : '_' :: (natToStr i).data = '_' :: (natToStr j).data :=
    List.append_cancel_left hd
  have h2 : (natToStr i).data = (natToStr j).data := by injection h1
  exact natToStr_injective (String.ext h2)

theorem nodup_length_le_of_forall_mem (l existing : List String)
    (hnd : l.Nodup) (hsub : ∀ x ∈ l, x ∈ existing) : l.length ≤ existing.length := by
  classical
  have h1 : l.toFinset.card = l.length := List.toFinset_card_of_nodup hnd
  have h2 : l.toFinset ⊆ existing.toFinset := by
    intro x hx
    exact List.mem_toFinset.mpr (hsub x (List.mem_toFinset.mp hx))
  calc l.length = l.toFinset.card := h1.symm
    _ ≤ existing.toFinset.card := Finset.card_le_card h2
    _ ≤ existing.length := existing.toFinset_card_le

theorem free_candidate_from_fuel (existing : List String) (base : String) (i : ℕ) :
    ∃ k, k < existing.length + 1 ∧ RenameFiles.candidate base (i + k) ∉ existing := by
  by_contra hcon
  push_neg at hcon
  set l := (List.range (existing.length + 1)).map
    (fun k => RenameFiles.candidate base (i + k)) with hl
  have hinj : Function.Injective (fun k => RenameFiles.candidate base (i + k)) := by
    intro k1 k2 he
    have := candidate_injective base he
    omega
  have hnd : l.Nodup := List.Nodup.map hinj (List.nodup_range _)
  have hsub : ∀ x ∈ l, x ∈ existing := by
    intro x hx
    obtain ⟨k, hk, rfl⟩ := List.mem_map.mp hx
    exact hcon k (List.mem_range.mp hk)
  have hle := nodup_length_le_of_forall_mem l existing hnd hsub
  rw [hl, List.length_map, List.length_range] at hle
  omega

theorem resolveDest_spec (existing : List String) (base : String) :
    ∀ (fuel i : ℕ), (∃ k, k < fuel ∧ RenameFiles.candidate base (i + k) ∉ existing) →
      ∃ j, i ≤ j ∧ RenameFiles.resolveDest existing base fuel i =
        some (RenameFiles.candidate base j) ∧
        RenameFiles.candidate base j ∉ existing := by
  intro fuel
  induction fuel with
  | zero =>
    rintro i ⟨k, hk, _⟩
    omega
  | succ f ih =>
    rintro i ⟨k, hk, hfree⟩
    by_cases hmem : RenameFiles.candidate base i ∈ existing
    · have hk0 : k ≠ 0 := by
        rintro rfl
        exact hfree hmem
      obtain ⟨j, hij, heq, hfree'⟩ := ih (i + 1)
        ⟨k - 1, by omega, by
          have harg : i + 1 + (k - 1) = i + k := by omega
          rw [harg]; exact hfree⟩
      refine ⟨j, by omega, ?_, hfree'⟩
      rw [RenameFiles.resolveDest, if_pos hmem]
      exact heq
    · refine ⟨i, le_refl i, ?_, hmem⟩
      rw [RenameFiles.resolveDest, if_neg hmem]

theorem destFor_free (existing : List String) (base : String) :
    ∃ d, RenameFiles.destFor existing base = some d ∧ d ∉ existing ∧
      (base ∈ existing → ∃ j, 1 ≤ j ∧ d = RenameFiles.candidate base j) ∧
      (base ∉ existing → d = base) := by
  by_cases hmem : base ∈ existing
  · obtain ⟨k, hk, hfree⟩ := free_candidate_from_fuel existing base 1
    obtain ⟨j, hj1, heq, hfree'⟩ :=
      resolveDest_spec existing base (existing.length + 1) 1 ⟨k, hk, hfree⟩
    refine ⟨RenameFiles.candidate base j, ?_, hfree', fun _ => ⟨j, hj1, rfl⟩,
      fun hn => absurd hmem hn⟩
    rw [RenameFiles.destFor, if_pos hmem]
    exact heq
  · exact ⟨base, by rw [RenameFiles.destFor, if_neg hmem], hmem,
      fun hc => absurd hc hmem, fun _ => rfl⟩

/-- C3 counterexample: in `rename_dac_files.py`, a matching file whose
normalised name already exists is skipped with a warning — no file is moved
and no numeric-suffixed free name is used, contradicting the claim for the
rename/flatten scripts taken together. -/
theorem claim_C3_counterexample :
    RenameDac.matchDacPattern "Zelda--param1-00.50x.dac" =
      some "Zelda--param1-00.50.dac" ∧
    "Zelda--param1-00.50.dac" ∈
      ["Zelda--param1-00.50x.dac", "Zelda--param1-00.50.dac"] ∧
    RenameDac.renameDacStep ["Zelda--param1-00.50x.dac", "Zelda--param1-00.50.dac"]
      "Zelda--param1-00.50x.dac" = RenameDac.DacAction.skipExists ∧
    RenameDac.movesFile RenameDac.DacAction.skipExists = false := by
  exact ⟨by decide, by decide, by decide, by decide⟩

/-- C3 (amended): no destination is ever overwritten by either script.
`rename_files.py` always resolves a colliding destination to a free name — the
intended name when free, otherwise a free numeric-suffixed `name_j` (`j ≥ 1`)
— while `rename_dac_files.py` handles a collision by skipping the file with a
warning (and it only ever renames to a name that does not already exist). -/
theorem claim_C3_no_overwrite (existing fs : List String) (base old new : String) :
    (∃ d, RenameFiles.destFor existing base = some d ∧ d ∉ existing ∧
      (base ∈ existing → ∃ j, 1 ≤ j ∧ d = RenameFiles.candidate base j) ∧
      (base ∉ existing → d = base)) ∧
    (RenameDac.renameDacStep fs old = RenameDac.DacAction.renamed new → new ∉ fs) ∧
    (∀ res, RenameDac.matchDacPattern old = some res → res ∈ fs → old ≠ res →
      RenameDac.renameDacStep fs old = RenameDac.DacAction.skipExists) := by
  refine ⟨destFor_free existing base, ?_, ?_⟩
  · intro hstep
    rw [RenameDac.renameDacStep] at hstep
    split at hstep
    · simp at hstep
    · split at hstep
      · simp at hstep
      · split at hstep
        · simp at hstep
        · rename_i hnotmem
          injection hstep with hh
          exact hh ▸ hnotmem
  · intro res hm hmem hne
    simp [RenameDac.renameDacStep, hm, hne, hmem]

theorem claim_C3_witness :
    RenameFiles.destFor ["a"] "a" = some "a_1" ∧
    RenameDac.renameDacStep ["Zelda--param1-00.50x.dac", "Zelda--param1-00.50.dac"]
      "Zelda--param1-00.50x.dac" = RenameDac.DacAction.skipExists := by
  constructor
  · obtain ⟨d, hd, hfree, hsuf, hbase⟩ :=
      (claim_C3_no_overwrite ["a"] [] "a" "" "").1
    have hcomp : RenameFiles.destFor ["a"] "a" = some "a_1" := by decide
    exact hcomp
  · exact (claim_C3_no_overwrite []
      ["Zelda--param1-00.50x.dac", "Zelda--param1-00.50.dac"] ""
      "Zelda--param1-00.50x.dac" "").2.2 "Zelda--param1-00.50.dac"
      (by decide) (by decide) (by decide)

theorem rename_dac_run_length (files : List String) :
    ∀ fs, (RenameDac.rename_dac_run fs files).2.length = files.length := by
  induction files with
  | nil => intro fs; rfl
  | cons f rest ih =>
    intro fs
    rw [RenameDac.rename_dac_run]
    simp [ih]

/-- C4 counterexample: a missing training spreadsheet makes the reorganize run
print an error and return before routing anything — the whole run stops, not
just the corresponding item, even though the validation spreadsheet and its
file are fine (second conjunct: the same run with a readable training
spreadsheet routes the validation file). -/
theorem claim_C4_counterexample :
    Reorg.reorganize_main false ⟨none, some ["a.dac"], [("a.dac", 0)]⟩ =
      Reorg.ReorgResult.abortedRead ∧
    Reorg.reorganize_main false ⟨some [], some ["a.dac"], [("a.dac", 0)]⟩ =
      Reorg.ReorgResult.finished [("a.dac", 0)] [] [("a.dac", 0)] [] := by
  exact ⟨rfl, by decide⟩

/-- C4 (amended): an unmatched filename pattern in `rename_dac_files.py` is
reported as a warning and only that file is skipped — the remaining files are
still processed and the run completes over the whole list; but a missing or
unreadable spreadsheet stops the reorganize run before any file is processed
(error message, clean return), and a missing input directory stops the encode
run (error logged, clean return). -/
theorem claim_C4_error_handling (fs gs files : List String) (f : String)
    (inp : Reorg.ReorgInputs) (move : Bool) (audio : List String)
    (class_name : String) (p : ℚ) :
    ((RenameDac.rename_dac_run fs files).2.length = files.length) ∧
    (RenameDac.matchDacPattern f = none →
      RenameDac.renameDacStep gs f = RenameDac.DacAction.skipNoMatch ∧
      RenameDac.rename_dac_run gs (f :: files) =
        ((RenameDac.rename_dac_run gs files).1,
          RenameDac.DacAction.skipNoMatch :: (RenameDac.rename_dac_run gs files).2)) ∧
    ((inp.train_excel = none ∨ inp.val_excel = none) →
      Reorg.reorganize_main move inp = Reorg.ReorgResult.abortedRead) ∧
    (DacEncode.encode_main false audio class_name p = DacEncode.EncodeResult.noInputDir) := by
  refine ⟨rename_dac_run_length files fs, ?_, ?_, rfl⟩
  · intro hm
    have hstep : RenameDac.renameDacStep gs f = RenameDac.DacAction.skipNoMatch := by
      rw [RenameDac.renameDacStep, hm]
    refine ⟨hstep, ?_⟩
    rw [RenameDac.rename_dac_run]
    simp [hstep, RenameDac.applyAction]
  · intro h
    obtain ⟨te, ve, src⟩ := inp
    rcases te with _ | tl
    · cases ve <;> rfl
    · rcases ve with _ | vl
      · rfl
      · simp at h

theorem claim_C4_witness :
    RenameDac.renameDacStep ["x.dac"] "x.dac" = RenameDac.DacAction.skipNoMatch ∧
    Reorg.reorganize_main false ⟨none, some [], []⟩ = Reorg.ReorgResult.abortedRead ∧
    DacEncode.encode_main false [] "c" 1 = DacEncode.EncodeResult.noInputDir := by
  have h := claim_C4_error_handling [] ["x.dac"] [] "x.dac" ⟨none, some [], []⟩ false [] "c" 1
  exact ⟨(h.2.1 (by decide)).1, h.2.2.1 (Or.inl rfl), h.2.2.2⟩

theorem lookup_cons_self (fs : List (String × ℕ)) (n : String) (c : ℕ) :
    (((n, c) :: fs).lookup n) = some c := by
  simp [List.lookup]

theorem lookup_cons_ne (fs : List (String × ℕ)) (x n : String) (c : ℕ) (h : n ≠ x) :
    (((x, c) :: fs).lookup n) = fs.lookup n := by
  rw [List.lookup, beq_eq_false_iff_ne.mpr h]

theorem lookup_removeFile_self (fs : List (String × ℕ)) (x : String) :
    (Reorg.removeFile fs x).lookup x = none := by
  induction fs with
  | nil => rfl
  | cons p ps ih =>
    obtain ⟨k, v⟩ := p
    by_cases hk : k = x
    · subst hk
      simpa [Reorg.removeFile, List.filter_cons] using ih
    · have hbeq : (k == x) = false := beq_eq_false_iff_ne.mpr hk
      have hxk : (x == k) = false := beq_eq_false_iff_ne.mpr (Ne.symm hk)
      simp only [Reorg.removeFile, List.filter_cons, hbeq, Bool.not_false, if_pos] at ih ⊢
      rw [List.lookup, hxk]
      exact ih

theorem lookup_removeFile_ne (fs : List (String × ℕ)) (x n : String) (h : n ≠ x) :
    (Reorg.removeFile fs x).lookup n = fs.lookup n := by
  induction fs with
  | nil => rfl
  | cons p ps ih =>
    obtain ⟨k, v⟩ := p
    by_cases hk : k = x
    · subst hk
      have hnk : (n == k) = false := beq_eq_false_iff_ne.mpr h
      have hkk : (k == k) = true := beq_self_eq_true k
      simp only [Reorg.removeFile, List.filter_cons, hkk, Bool.not_true, if_neg] at ih ⊢
      rw [List.lookup, hnk]
      simpa [Reorg.removeFile] using ih
    · have hbeq : (k == x) = false := beq_eq_false_iff_ne.mpr hk
      by_cases hkn : n = k
      · subst hkn
        simp only [Reorg.removeFile, List.filter_cons, hbeq, Bool.not_false, if_pos]
        rw [List.lookup, List.lookup, beq_self_eq_true]
      · have hnk : (n == k) = false := beq_eq_false_iff_ne.mpr hkn
        simp only [Reorg.removeFile, List.filter_cons, hbeq, Bool.not_false, if_pos]
        rw [List.lookup, List.lookup, hnk]
        simpa [Reorg.removeFile] using ih

theorem processOne_eq_copy (st : Reorg.DirState) (name : String) (c : ℕ)
    (h : st.src.lookup name = some c) :
    Reorg.processOne false st name = ⟨st.src, (name, c) :: st.dst, st.warns⟩ := by
  simp [Reorg.processOne, h]

theorem processOne_eq_move (st : Reorg.DirState) (name : String) (c : ℕ)
    (h : st.src.lookup name = some c) :
    Reorg.processOne true st name =
      ⟨Reorg.removeFile st.src name, (name, c) :: st.dst, st.warns⟩ := by
  simp [Reorg.processOne, h]

theorem processOne_eq_missing (move : Bool) (st : Reorg.DirState) (name : String)
    (h : st.src.lookup name = none) :
    Reorg.processOne move st name = ⟨st.src, st.dst, st.warns ++ [name]⟩ := by
  simp [Reorg.processOne, h]

theorem process_files_cons (move : Bool) (st : Reorg.DirState) (x : String)
    (xs : List String) :
    Reorg.process_files move st (x :: xs) =
      Reorg.process_files move (Reorg.processOne move st x) xs := rfl

theorem process_files_dst_stable (move : Bool) (l : List String) :
    ∀ (st : Reorg.DirState) (name : String) (c : ℕ),
      st.dst.lookup name = some c →
      (st.src.lookup name = none ∨ st.src.lookup name = some c) →
      (Reorg.process_files move st l).dst.lookup name = some c := by
  induction l with
  | nil => intro st name c h1 _; exact h1
  | cons x xs ih =>
    intro st name c h1 h2
    rw [process_files_cons]
    by_cases hx : x = name
    · subst hx
      rcases h2 with hn | hs
      · rw [processOne_eq_missing move st x hn]
        exact ih ⟨st.src, st.dst, st.warns ++ [x]⟩ x c h1 (Or.inl hn)
      · cases move
        · rw [processOne_eq_copy st x c hs]
          exact ih _ x c (lookup_cons_self _ _ _) (Or.inr hs)
        · rw [processOne_eq_move st x c hs]
          exact ih _ x c (lookup_cons_self _ _ _) (Or.inl (lookup_removeFile_self _ _))
    · have hne : name ≠ x := fun he => hx he.symm
      cases hsrc : st.src.lookup x with
      | none =>
        rw [processOne_eq_missing move st x hsrc]
        exact ih _ name c h1 h2
      | some cx =>
        cases move
        · rw [processOne_eq_copy st x cx hsrc]
          exact ih _ name c (by rw [lookup_cons_ne _ _ _ _ hne]; exact h1) h2
        · rw [processOne_eq_move st x cx hsrc]
          refine ih _ name c (by rw [lookup_cons_ne _ _ _ _ hne]; exact h1) ?_
          rcases h2 with hn | hs
          · exact Or.inl (by rw [lookup_removeFile_ne _ _ _ hne]; exact hn)
          · exact Or.inr (by rw [lookup_removeFile_ne _ _ _ hne]; exact hs)

theorem process_files_take_succ (move : Bool) (st : Reorg.DirState) (l : List String)
    (i : ℕ) (hi : i < l.length) :
    Reorg.process_files move st (l.take (i + 1)) =
      Reorg.processOne move (Reorg.process_files move st (l.take i)) l[i] := by
  have hget : l[i]? = some l[i] := List.getElem?_eq_getElem hi
  rw [Reorg.process_files, List.take_succ, hget, List.foldl_append]
  rfl

theorem process_files_split (move : Bool) (st : Reorg.DirState) (l : List String)
    (i : ℕ) :
    Reorg.process_files move st l =
      Reorg.process_files move (Reorg.process_files move st (l.take (i + 1)))
        (l.drop (i + 1)) := by
  rw [Reorg.process_files, Reorg.process_files, Reorg.process_files,
    ← List.foldl_append, List.take_append_drop]

/-- C7: every spreadsheet row whose file exists in the source directory at the
moment it is processed ends up, under its exact name and with the source file's
content, in the destination directory the row was routed to — copied when
`--move` is absent (the source directory is untouched) and moved when it is
present (the source loses the file); a row whose file is absent only appends a
warning and changes nothing else.  The third conjunct carries the per-row fact
to the end of the whole run. -/
theorem claim_C7_routing (move : Bool) (st : Reorg.DirState) (l : List String)
    (i : ℕ) (hi : i < l.length) (c : ℕ) (name : String) :
    (st.src.lookup name = some c →
      (Reorg.processOne move st name).dst.lookup name = some c ∧
      (move = false → (Reorg.processOne move st name).src = st.src) ∧
      (move = true → (Reorg.processOne move st name).src.lookup name = none)) ∧
    (st.src.lookup name = none →
      Reorg.processOne move st name = ⟨st.src, st.dst, st.warns ++ [name]⟩) ∧
    ((Reorg.process_files move st (l.take i)).src.lookup l[i] = some c →
      (Reorg.process_files move st l).dst.lookup l[i] = some c) := by
  refine ⟨?_, processOne_eq_missing move st name, ?_⟩
  · intro h
    cases move
    · rw [processOne_eq_copy st name c h]
      exact ⟨lookup_cons_self _ _ _, fun _ => rfl, fun hh => by simp at hh⟩
    · rw [processOne_eq_move st name c h]
      exact ⟨lookup_cons_self _ _ _, fun hh => by simp at hh,
        fun _ => lookup_removeFile_self _ _⟩
  · intro h
    rw [process_files_split move st l i, process_files_take_succ move st l i hi]
    set st_i := Reorg.process_files move st (l.take i) with hsti
    cases move
    · rw [processOne_eq_copy st_i l[i] c h]
      exact process_files_dst_stable false (l.drop (i + 1)) _ l[i] c
        (lookup_cons_self _ _ _) (Or.inr h)
    · rw [processOne_eq_move st_i l[i] c h]
      exact process_files_dst_stable true (l.drop (i + 1)) _ l[i] c
        (lookup_cons_self _ _ _) (Or.inl (lookup_removeFile_self _ _))

theorem claim_C7_witness :
    (Reorg.process_files false ⟨[("a.dac", 7)], [], []⟩ ["a.dac"]).dst.lookup "a.dac" =
      some 7 := by
  have h := (claim_C7_routing false ⟨[("a.dac", 7)], [], []⟩ ["a.dac"] 0 (by decide)
    7 "a.dac").2.2
  exact h (by decide)

/-- C9: the reorganize script performs its copy or move without checking
whether the destination path already exists: a routed file whose name is
already present in the destination silently replaces the existing entry — the
destination afterwards maps the name to the source content, no other
destination entry changes, no suffixed variant appears, and no warning is
emitted. -/
theorem claim_C9_silent_overwrite (move : Bool) (st : Reorg.DirState) (name : String)
    (c d : ℕ) (hsrc : st.src.lookup name = some c) (_hdst : st.dst.lookup name = some d) :
    (Reorg.processOne move st name).dst.lookup name = some c ∧
    (∀ n2, n2 ≠ name → (Reorg.processOne move st name).dst.lookup n2 = st.dst.lookup n2) ∧
    (Reorg.processOne move st name).warns = st.warns := by
  cases move
  · rw [processOne_eq_copy st name c hsrc]
    exact ⟨lookup_cons_self _ _ _, fun n2 hn => lookup_cons_ne _ _ _ _ hn, rfl⟩
  · rw [processOne_eq_move st name c hsrc]
    exact ⟨lookup_cons_self _ _ _, fun n2 hn => lookup_cons_ne _ _ _ _ hn, rfl⟩

theorem claim_C9_witness :
    (Reorg.processOne false ⟨[("a.dac", 7)], [("a.dac", 5)], []⟩ "a.dac").dst.lookup
      "a.dac" = some 7 :=
  (claim_C9_silent_overwrite false ⟨[("a.dac", 7)], [("a.dac", 5)], []⟩ "a.dac" 7 5
    (by decide) (by decide)).1
